import Mathlib

/-!
Verification of the text-extraction and heuristic-inference core of the
repo-backend service (src/routes/auth.js).

The JavaScript functions are shallowly embedded as executable Lean
functions over `List Char` (with `String` wrappers).  Conventions used
throughout:

* JS strings are modelled as `List Char`; `String.data` converts.
* JS `toLowerCase`/`toUpperCase` are modelled with core `Char.toLower` /
  `Char.toUpper`, which act on the ASCII range exactly as JS does there
  (the code under analysis manipulates ASCII text).
* The JS whitespace class `\s` is modelled by `jsWs` (ASCII whitespace);
  the word class `\w` by `jsWordChar` (`[A-Za-z0-9_]`).
* JS numbers reached by the retry backoff (`800`, `800*1.6 = 1280`,
  `1280*1.6 = 2048`) are exact in IEEE doubles, so the backoff delay is
  modelled exactly with `ℚ` and the factor `8/5`.
-/

/-- ASCII whitespace, modelling the JS `\s` class on the ASCII range. -/
def jsWs (c : Char) : Bool :=
  c = ' ' || c = '\t' || c = '\n' || c = '\r' || c = '\x0b' || c = '\x0c'

/-- JS `\w` word-character class: `[A-Za-z0-9_]`. -/
def jsWordChar (c : Char) : Bool :=
  (65 ≤ c.toNat && c.toNat ≤ 90) || (97 ≤ c.toNat && c.toNat ≤ 122) ||
  (48 ≤ c.toNat && c.toNat ≤ 57) || c = '_'

/-- ASCII digit test. -/
def jsDigit (c : Char) : Bool :=
  48 ≤ c.toNat && c.toNat ≤ 57

/-- JS `String.prototype.trim` (ASCII whitespace model). -/
def jsTrim (l : List Char) : List Char :=
  ((l.dropWhile jsWs).reverse.dropWhile jsWs).reverse

/-- JS `s.replace(/\s+/g, " ")`: collapse every whitespace run to one space.
The `Bool` argument records whether the previous character was whitespace. -/
def collapseWsAux : List Char → Bool → List Char
  | [], _ => []
  | c :: rest, prevWs =>
    if jsWs c then
      if prevWs then collapseWsAux rest true else ' ' :: collapseWsAux rest true
    else c :: collapseWsAux rest false

def collapseWs (l : List Char) : List Char := collapseWsAux l false

/-- JS `s.split(/\s+/)`: pieces between whitespace runs, keeping the empty
piece that JS produces at the start and at the end when the string begins
or ends with whitespace.  `cur` is the piece under construction (reversed),
`afterWs` is true while consuming a whitespace run. -/
def jsSplitWsAux : List Char → List Char → Bool → List (List Char)
  | [], cur, _ => [cur.reverse]
  | c :: rest, cur, afterWs =>
    if jsWs c then
      if afterWs then jsSplitWsAux rest [] true
      else cur.reverse :: jsSplitWsAux rest [] true
    else jsSplitWsAux rest (c :: cur) false

def jsSplitWs (l : List Char) : List (List Char) := jsSplitWsAux l [] false

/-- JS `s.split(c)` for a single-character separator. -/
def jsSplitCharAux (sep : Char) : List Char → List Char → List (List Char)
  | [], cur => [cur.reverse]
  | c :: rest, cur =>
    if c = sep then cur.reverse :: jsSplitCharAux sep rest []
    else jsSplitCharAux sep rest (c :: cur)

def jsSplitChar (sep : Char) (l : List Char) : List (List Char) :=
  jsSplitCharAux sep l []

/-- `Array.prototype.join(sep)` for lists of character lists. -/
def joinSep (sep : List Char) : List (List Char) → List Char
  | [] => []
  | [w] => w
  | w :: rest => w ++ sep ++ joinSep sep rest

/-- The JS `cap` helper:
`s ? s[0].toUpperCase() + s.slice(1).toLowerCase() : ""`. -/
def cap : List Char → List Char
  | [] => []
  | c :: rest => c.toUpper :: rest.map Char.toLower

/-! ### Author splitting

`parseAuthorsToAPAList` splits the raw author string with
`raw.split(/\s*(?:,|;|&|and)\s*/i)`.  The separator cores are `,` `;` `&`
and the case-insensitive three-letter substring `and` (no word boundaries);
the `\s*` on both sides only ever consumes whitespace adjacent to a core,
so the split is modelled as: split on the cores, then trim every piece.
Empty pieces are removed by the subsequent `.filter(Boolean)`. -/

/-- Case-insensitive test for the three characters `a` `n` `d`. -/
def isAndTriple (a n d : Char) : Bool :=
  a.toLower = 'a' && n.toLower = 'n' && d.toLower = 'd'

/-- Split on the separator cores of `/\s*(?:,|;|&|and)\s*/i`. -/
def coreSplitAux : List Char → List Char → List (List Char)
  | [], cur => [cur.reverse]
  | c :: n :: d :: rest2, cur =>
    if c = ',' || c = ';' || c = '&' then
      cur.reverse :: coreSplitAux (n :: d :: rest2) []
    else if isAndTriple c n d then cur.reverse :: coreSplitAux rest2 []
    else coreSplitAux (n :: d :: rest2) (c :: cur)
  | c :: rest, cur =>
    if c = ',' || c = ';' || c = '&' then cur.reverse :: coreSplitAux rest []
    else coreSplitAux rest (c :: cur)

/-- The token list produced by the split in `parseAuthorsToAPAList`
(after `filter(Boolean)`); each piece is trimmed because the regex's
`\s*` consumes whitespace adjacent to each separator core. -/
def authorTokens (raw : List Char) : List (List Char) :=
  ((coreSplitAux raw []).map jsTrim).filter (fun t => t ≠ [])

/-- JS `entry.replace(/,\s*$/, "")`: remove one trailing comma together
with the whitespace following it, if the string ends that way. -/
def stripTrailingCommaWs (l : List Char) : List Char :=
  let r := l.reverse.dropWhile jsWs
  match r with
  | ',' :: r' => r'.reverse
  | _ => l

/-- The `(first, middle, last)` triple guessed from one (trimmed,
non-empty) token. -/
def tokenFML (token : List Char) : List Char × List Char × List Char :=
  if token.contains ',' then
    -- "Last, First" branch (dead in practice: the splitter consumes commas)
    let pieces := (jsSplitChar ',' token).map jsTrim
    let l := pieces.headD []
    let rest := pieces[1]?.getD []
    let last := cap l
    if rest ≠ [] then
      let parts := ((jsSplitWs rest).filter (fun p => p ≠ [])).map cap
      (parts.headD [], joinSep [' '] parts.tail, last)
    else ([], [], last)
  else
    let parts := (jsSplitWs token).filter (fun p => p ≠ [])
    if 2 ≤ parts.length then
      (cap (parts.headD []), joinSep [' '] ((parts.dropLast).tail.map cap),
       cap (parts.getLast?.getD []))
    else ([], [], cap (parts.headD []))

/-- The `"Last, F. M."` string built from one (trimmed, non-empty)
token: initials of the first and middle names are appended to the last
name, and a dangling `", "` is removed when there are no initials. -/
def entryBody (token : List Char) : List Char :=
  let fml := tokenFML token
  let first := fml.1
  let middle := fml.2.1
  let last := fml.2.2
  let initialWords := first :: (jsSplitWs middle).filter (fun p => p ≠ [])
  let initials := joinSep [' ']
    (initialWords.map (fun w => match w with
      | [] => []
      | c :: _ => [c.toUpper, '.']))
  stripTrailingCommaWs (last ++ [',', ' '] ++ initials)

/-- Body of the per-token loop of `parseAuthorsToAPAList` (`none` when
the trimmed token is empty, mirroring `if (!token) continue`). -/
def entryOfToken (token0 : List Char) : Option (List Char) :=
  let token := jsTrim token0
  if token = [] then none else some (entryBody token)

/-- `parseAuthorsToAPAList` from src/routes/auth.js: parse a free-form
author string into a list of `"Last, F. M."` strings. -/
def parseAuthorsToAPAList (authorRaw : String) : List String :=
  let raw := jsTrim authorRaw.data
  if raw = [] then ["Author"]
  else
    let out := (authorTokens raw).filterMap entryOfToken
    if out = [] then ["Author"] else out.map (fun l => String.mk l)

example : parseAuthorsToAPAList "Dela Cruz, Juan" = ["Cruz, D.", "Juan"] := by decide
example : parseAuthorsToAPAList "Fernandez" = ["Fern", "Ez"] := by decide
example : parseAuthorsToAPAList "" = ["Author"] := by decide
example : parseAuthorsToAPAList "Juan P. Dela Cruz" = ["Cruz, J. P. D."] := by decide

/-! ### Citation formatting helpers -/

/-- `toIEEEList` from src/routes/auth.js: turn each `"Last, F. M."` entry
into `"F. M. Last"`.  `initials || ""` makes a missing second piece
(`undefined`) behave like the empty string. -/
def toIEEEList (apaList : List String) : List String :=
  apaList.map (fun a =>
    let pieces := (jsSplitChar ',' a.data).map jsTrim
    let last := pieces.headD []
    let initials := pieces[1]?.getD []
    String.mk (collapseWs (jsTrim (initials ++ [' '] ++ last))))

/-- `toBibtexAuthor` from src/routes/auth.js: join `"Last, Initials"`
parts with `" and "`.  When an APA entry has no comma, destructuring
leaves `initials` undefined and the template literal renders the string
`"undefined"`; the model reproduces that. -/
def toBibtexAuthor (authorRaw : String) : String :=
  let apaList := parseAuthorsToAPAList authorRaw
  let bibParts := apaList.map (fun a =>
    let pieces := (jsSplitChar ',' a.data).map jsTrim
    let last := pieces.headD []
    let initials := pieces[1]?.getD "undefined".data
    last ++ [',', ' '] ++ initials)
  String.mk (joinSep " and ".data bibParts)

/-- State for `toSentenceCase`'s uppercase pass: `0` = normal, `1` = just
saw a sentence-ending `.!?`, `2` = saw `.!?` followed by at least one
whitespace character (so a word character here begins a new sentence). -/
def sentenceCaseAux : List Char → Nat → List Char
  | [], _ => []
  | c :: rest, st =>
    if st = 2 && jsWordChar c then c.toUpper :: sentenceCaseAux rest 0
    else if c = '.' || c = '!' || c = '?' then c :: sentenceCaseAux rest 1
    else if jsWs c && 1 ≤ st then c :: sentenceCaseAux rest 2
    else c :: sentenceCaseAux rest 0

/-- `toSentenceCase` from src/routes/auth.js:
lowercase, then uppercase the first word character of the string and of
every word character following `[.!?]\s+`, then collapse whitespace and
trim. -/
def toSentenceCase (s : String) : String :=
  let low := s.data.map Char.toLower
  let upped :=
    match low with
    | [] => []
    | c :: rest =>
      (if jsWordChar c then c.toUpper else c) ::
        sentenceCaseAux rest (if c = '.' || c = '!' || c = '?' then 1 else 0)
  String.mk (jsTrim (collapseWs upped))

/-- `normalizeYear` from src/routes/auth.js: first run of four digits,
else the literal `"n.d."`. -/
def findFourDigits : List Char → Option (List Char)
  | a :: b :: c :: d :: rest =>
    if jsDigit a && jsDigit b && jsDigit c && jsDigit d then some [a, b, c, d]
    else findFourDigits (b :: c :: d :: rest)
  | _ => none

def normalizeYear (y : String) : String :=
  match findFourDigits y.data with
  | some ds => String.mk ds
  | none => "n.d."

/-- The result assembled by the `mode === "citations"` branch of the
`/abstract-tools` route. -/
structure CitationSet where
  apa : String
  ieee : String
  bibtex : String
  bibkey : String
  deriving DecidableEq, Repr

/-- The citation computation of the `mode === "citations"` branch of
src/routes/auth.js (`formatCitations(authorRaw, title, year)` in the
spec): builds the APA and IEEE strings, the BibTeX key and the BibTeX
record from the author string, title and year. -/
def formatCitations (author title year : String) : CitationSet :=
  let apaList := parseAuthorsToAPAList author
  let ieeeList := toIEEEList apaList
  let bibtexAuthor := toBibtexAuthor author
  let yr := normalizeYear year
  let titleSentence := toSentenceCase (if title = "" then "Untitled study" else title)
  let apaAuthors := String.intercalate ", " apaList
  let ieeeAuthors := String.intercalate ", " ieeeList
  let apa := apaAuthors ++ " (" ++ yr ++ "). " ++ titleSentence ++ "."
  let ieee := ieeeAuthors ++ ", \"" ++ titleSentence ++ ",\" " ++ yr ++ "."
  let firstLast := String.mk
    ((((jsSplitChar ',' (apaList.headD "Author").data).headD []).map Char.toLower).filter
      (fun c => (97 ≤ c.toNat && c.toNat ≤ 122) || (48 ≤ c.toNat && c.toNat ≤ 57)))
  let bibkey := firstLast ++ (if yr = "n.d." then "nd" else yr)
  let bibtex :=
    "@article\x7b" ++ bibkey ++ ",\n" ++
    "  title=\x7b" ++ (if title = "" then "Untitled study" else title) ++ "\x7d,\n" ++
    "  author=\x7b" ++ (if bibtexAuthor = "" then "Author" else bibtexAuthor) ++ "\x7d,\n" ++
    "  year=\x7b" ++ yr ++ "\x7d\n" ++
    "\x7d"
  { apa := apa, ieee := ieee, bibtex := bibtex, bibkey := bibkey }

example : (formatCitations "Dela Cruz, Juan" "effects of x on y" "2023").apa =
    "Cruz, D., Juan (2023). Effects of x on y." := by decide
example : (formatCitations "Dela Cruz, Juan" "effects of x on y" "2023").ieee =
    "D. Cruz, Juan, \"Effects of x on y,\" 2023." := by decide
example : (formatCitations "Dela Cruz, Juan" "effects of x on y" "2023").bibkey =
    "cruz2023" := by decide

/-! ### The Inference Client (`callHF`)

`callHF` is modelled over an abstract provider behaviour: for each
attempt number (1-based) the provider either makes `fetch` throw (network
failure, or the per-attempt timeout firing through `AbortController`) or
yields an HTTP status together with the result of `res.json()`.  The JSON
result is either malformed (the `catch` around `res.json()`) or an
arbitrary parsed JSON value — null, boolean, number, string, array or
object.  Only the `try` around `res.json()` catches: the subsequent
`data.error` access on a `null` body and the `(text || "").trim()` call
on a truthy non-string `summary_text`/`generated_text` both throw a
`TypeError` that escapes `callHF`; the model records such an escaped
exception as the `thrown` result. -/

/-- A parsed JSON value as `res.json()` can produce it.  `jobj` models
the already-parsed object, so keys are unique (as `JSON.parse` yields);
numbers are modelled as exact rationals — only their truthiness
(`≠ 0`) matters to this code, and `NaN` cannot come out of JSON. -/
inductive JVal where
  | jnull : JVal
  | jbool : Bool → JVal
  | jnum : ℚ → JVal
  | jstr : String → JVal
  | jarr : List JVal → JVal
  | jobj : List (String × JVal) → JVal

/-- Result of `res.json()` on one attempt: the `catch` case or a parsed
value. -/
inductive HFBody where
  | malformed : HFBody
  | value : JVal → HFBody

/-- What the provider does on one attempt: `netError` models a `fetch`
rejection (network failure or abort-on-timeout); `response` models a
completed HTTP response. -/
inductive HFAttempt where
  | netError : String → HFAttempt
  | response : Nat → HFBody → HFAttempt

/-- The observable result of one `callHF` call: `success` models a
returned `{ text }`, `failure` a returned `{ error }` (whose reason is
`data.error`, an arbitrary truthy JSON value, or one of the literal
message strings), and `thrown` a `TypeError` escaping the function
(the promise rejecting). -/
inductive HFResult where
  | success : String → HFResult
  | failure : JVal → HFResult
  | thrown : HFResult

/-- JS truthiness of a JSON value (`null`, `false`, `0`, `-0` and `""`
are falsy; every array and object is truthy). -/
def jsTruthyV : JVal → Bool
  | .jnull => false
  | .jbool b => b
  | .jnum q => q ≠ 0
  | .jstr s => s ≠ ""
  | .jarr _ => true
  | .jobj _ => true

/-- Truthiness of a possibly-`undefined` value. -/
def jsTruthyOpt : Option JVal → Bool
  | none => false
  | some v => jsTruthyV v

/-- Property access `v.name` for the non-null values this code reads:
objects look the field up, every other value (booleans, numbers,
strings, arrays) yields `undefined` for these names.  `null` never
reaches this function — `data.error` on `null` throws first, and the
array branch guards `data[0]` with `?.`. -/
def propOrUndef : JVal → String → Option JVal
  | .jobj fields, name => fields.lookup name
  | _, _ => none

/-- Optional chaining `x?.name`: `undefined` and `null` short-circuit to
`undefined`. -/
def optChainProp : Option JVal → String → Option JVal
  | none, _ => none
  | some .jnull, _ => none
  | some v, name => propOrUndef v name

/-- `a || b || ""`: the first truthy operand, else the final `""`. -/
def orChainText (a b : Option JVal) : JVal :=
  if jsTruthyOpt a then a.getD (.jstr "")
  else if jsTruthyOpt b then b.getD (.jstr "")
  else .jstr ""

/-- The `text` value the code computes:
`Array.isArray(data) ? data[0]?.summary_text || data[0]?.generated_text || ""
                     : data.summary_text || data.generated_text || ""`. -/
def selectedText (v : JVal) : JVal :=
  match v with
  | .jarr elems =>
    orChainText (optChainProp elems.head? "summary_text")
      (optChainProp elems.head? "generated_text")
  | _ =>
    orChainText (propOrUndef v "summary_text") (propOrUndef v "generated_text")

/-- `(text || "")`. -/
def coalesce (t : JVal) : JVal :=
  if jsTruthyV t then t else .jstr ""

/-- One non-retryable attempt of `callHF`, given the attempt's
`res.json()` result: malformed JSON and a truthy `error` field return a
`Failure`; a `null` body throws at `data.error`; a truthy non-string
`text` throws at `(text || "").trim()`; everything else returns a
`Success` with the trimmed extracted text. -/
def hfSettle : HFBody → HFResult
  | .malformed => .failure (.jstr "Invalid JSON from Hugging Face")
  | .value v =>
    match v with
    | .jnull => .thrown
    | _ =>
      let err := propOrUndef v "error"
      if jsTruthyOpt err then .failure (err.getD .jnull)
      else
        match coalesce (selectedText v) with
        | .jstr s => .success (String.mk (jsTrim s.data))
        | _ => .thrown

/-- The retry loop of `callHF`.  `attempt` is the 1-based attempt number,
`left` the number of attempts still allowed after the current one
(`attempt === tries` in the code is `left = 0`), `delay` the current
backoff delay in milliseconds, `sleeps` the delays slept so far
(reversed).  Returns the result, the number of POST attempts made and
the list of sleeps. -/
def callHFGo (behav : Nat → HFAttempt) :
    Nat → Nat → ℚ → List ℚ → HFResult × Nat × List ℚ
  | attempt, left, delay, sleeps =>
    match behav attempt, left with
    | .netError msg, 0 =>
      (.failure (.jstr ("Network error: " ++ msg)), attempt, sleeps.reverse)
    | .netError _, left' + 1 =>
      callHFGo behav (attempt + 1) left' (delay * (8 / 5)) (delay :: sleeps)
    | .response status body, left' =>
      if status = 503 || status = 429 then
        match left' with
        | 0 =>
          (.failure (.jstr ("HF " ++ toString status ++ ": model busy/starting")),
           attempt, sleeps.reverse)
        | left'' + 1 =>
          callHFGo behav (attempt + 1) left'' (delay * (8 / 5)) (delay :: sleeps)
      else (hfSettle body, attempt, sleeps.reverse)

/-- `callHF` from src/routes/auth.js, abstracted over the provider
behaviour; `tries` is the `tries` parameter (default 3).  The JS backoff
`delay *= 1.6` starting at 800 is exact rational arithmetic here, which
coincides with IEEE doubles on every value reachable with the `tries`
used in the repository (800, 1280, 2048). -/
def callHF (behav : Nat → HFAttempt) (tries : Nat) : HFResult × Nat × List ℚ :=
  match tries with
  | 0 => (.failure (.jstr "HF failed after retries."), 0, [])
  | t + 1 => callHFGo behav 1 t 800 []

example :
    callHF (fun n => if n ≤ 2 then .response 503 (.value (.jobj []))
      else .response 200 (.value (.jobj [("summary_text", .jstr "ok")]))) 3 =
    (.success "ok", 3, [800, 1280]) := by
  simp [callHF, callHFGo, hfSettle, propOrUndef, jsTruthyOpt, jsTruthyV,
    selectedText, orChainText, coalesce]
  norm_num
  all_goals rfl
example :
    callHF (fun _ => .response 404 (.value (.jobj [("summary_text", .jstr "oops")]))) 3 =
    (.success "oops", 1, []) := rfl
example :
    callHF (fun _ => .response 404 (.value (.jobj [("error", .jstr "Not Found")]))) 3 =
    (.failure (.jstr "Not Found"), 1, []) := rfl
example :
    callHF (fun _ => .response 200 (.value .jnull)) 3 = (.thrown, 1, []) := rfl
example :
    callHF (fun _ => .response 200 (.value (.jobj [("error", .jnum 5)]))) 3 =
    (.failure (.jnum 5), 1, []) := rfl
example :
    callHF (fun _ => .response 200 (.value (.jobj [("summary_text", .jnum 42)]))) 3 =
    (.thrown, 1, []) := rfl
example :
    callHF (fun _ => .response 200 (.value (.jnum 7))) 3 = (.success "", 1, []) := rfl

/-- A per-attempt behaviour is tame when settling it cannot throw: the
body is malformed (caught), or a non-null value that either fails with a
truthy `error` field or selects a string (possibly empty) `text`. -/
def bodyTame : HFBody → Bool
  | .malformed => true
  | .value v =>
    match v with
    | .jnull => false
    | _ =>
      jsTruthyOpt (propOrUndef v "error") ||
        (match coalesce (selectedText v) with
          | .jstr _ => true
          | _ => false)

def attemptTame : HFAttempt → Bool
  | .netError _ => true
  | .response _ body => bodyTame body

/-- Settling a tame body never throws. -/
theorem hfSettle_tame (body : HFBody) (h : bodyTame body = true) :
    hfSettle body ≠ .thrown := by
  cases body with
  | malformed => intro hc; cases hc
  | value v =>
    cases v with
    | jnull => simp [bodyTame] at h
    | jbool b =>
      simp only [bodyTame] at h
      simp only [hfSettle]
      by_cases he : jsTruthyOpt (propOrUndef (JVal.jbool b) "error") = true
      · rw [if_pos he]; intro hc; cases hc
      · rw [if_neg he]
        simp only [he, Bool.false_or] at h
        cases hco : coalesce (selectedText (JVal.jbool b)) with
        | jstr s => intro hc; cases hc
        | jnull => rw [hco] at h; simp at h
        | jbool c => rw [hco] at h; simp at h
        | jnum q => rw [hco] at h; simp at h
        | jarr a => rw [hco] at h; simp at h
        | jobj o => rw [hco] at h; simp at h
    | jnum q =>
      simp only [bodyTame] at h
      simp only [hfSettle]
      by_cases he : jsTruthyOpt (propOrUndef (JVal.jnum q) "error") = true
      · rw [if_pos he]; intro hc; cases hc
      · rw [if_neg he]
        simp only [he, Bool.false_or] at h
        cases hco : coalesce (selectedText (JVal.jnum q)) with
        | jstr s => intro hc; cases hc
        | jnull => rw [hco] at h; simp at h
        | jbool c => rw [hco] at h; simp at h
        | jnum p => rw [hco] at h; simp at h
        | jarr a => rw [hco] at h; simp at h
        | jobj o => rw [hco] at h; simp at h
    | jstr s =>
      simp only [bodyTame] at h
      simp only [hfSettle]
      by_cases he : jsTruthyOpt (propOrUndef (JVal.jstr s) "error") = true
      · rw [if_pos he]; intro hc; cases hc
      · rw [if_neg he]
        simp only [he, Bool.false_or] at h
        cases hco : coalesce (selectedText (JVal.jstr s)) with
        | jstr s2 => intro hc; cases hc
        | jnull => rw [hco] at h; simp at h
        | jbool c => rw [hco] at h; simp at h
        | jnum p => rw [hco] at h; simp at h
        | jarr a => rw [hco] at h; simp at h
        | jobj o => rw [hco] at h; simp at h
    | jarr elems =>
      simp only [bodyTame] at h
      simp only [hfSettle]
      by_cases he : jsTruthyOpt (propOrUndef (JVal.jarr elems) "error") = true
      · rw [if_pos he]; intro hc; cases hc
      · rw [if_neg he]
        simp only [he, Bool.false_or] at h
        cases hco : coalesce (selectedText (JVal.jarr elems)) with
        | jstr s2 => intro hc; cases hc
        | jnull => rw [hco] at h; simp at h
        | jbool c => rw [hco] at h; simp at h
        | jnum p => rw [hco] at h; simp at h
        | jarr a => rw [hco] at h; simp at h
        | jobj o => rw [hco] at h; simp at h
    | jobj fields =>
      simp only [bodyTame] at h
      simp only [hfSettle]
      by_cases he : jsTruthyOpt (propOrUndef (JVal.jobj fields) "error") = true
      · rw [if_pos he]; intro hc; cases hc
      · rw [if_neg he]
        simp only [he, Bool.false_or] at h
        cases hco : coalesce (selectedText (JVal.jobj fields)) with
        | jstr s2 => intro hc; cases hc
        | jnull => rw [hco] at h; simp at h
        | jbool c => rw [hco] at h; simp at h
        | jnum p => rw [hco] at h; simp at h
        | jarr a => rw [hco] at h; simp at h
        | jobj o => rw [hco] at h; simp at h

/-- The retry loop never throws when every attempt it can reach is
tame. -/
theorem callHFGo_not_thrown (behav : Nat → HFAttempt) :
    ∀ (left attempt : Nat) (delay : ℚ) (sleeps : List ℚ),
      (∀ k, attempt ≤ k → k ≤ attempt + left → attemptTame (behav k) = true) →
      (callHFGo behav attempt left delay sleeps).1 ≠ .thrown := by
  intro left
  induction left with
  | zero =>
    intro attempt delay sleeps htame
    have ht : attemptTame (behav attempt) = true :=
      htame attempt (le_refl _) (by omega)
    rw [callHFGo.eq_def]
    cases hb : behav attempt with
    | netError msg =>
      simp only [hb]
      simp
    | response status body =>
      rw [hb] at ht
      simp only [attemptTame] at ht
      simp only [hb]
      by_cases hbusy : (status = 503 || status = 429) = true
      · rw [if_pos hbusy]
        simp
      · rw [if_neg hbusy]
        exact hfSettle_tame body ht
  | succ left' ih =>
    intro attempt delay sleeps htame
    have hshift : ∀ k, attempt + 1 ≤ k → k ≤ attempt + 1 + left' →
        attemptTame (behav k) = true := by
      intro k h1 h2
      exact htame k (by omega) (by omega)
    rw [callHFGo.eq_def]
    cases hb : behav attempt with
    | netError msg =>
      simp only [hb]
      exact ih (attempt + 1) _ _ hshift
    | response status body =>
      simp only [hb]
      by_cases hbusy : (status = 503 || status = 429) = true
      · rw [if_pos hbusy]
        exact ih (attempt + 1) _ _ hshift
      · rw [if_neg hbusy]
        have ht : attemptTame (behav attempt) = true :=
          htame attempt (le_refl _) (by omega)
        rw [hb] at ht
        simp only [attemptTame] at ht
        exact hfSettle_tame body ht

/-! ### Keyword pattern matching

The keyword regexes of the code are alternations of literal words wrapped
in `\b...\b`, occasionally with an optional character (`results?`,
`t[- ]?test`) or an internal `\s+` (`key\s+point`).  Optional parts are
expanded into explicit alternatives listed in the regex engine's greedy
preference order; `\s+` becomes an explicit token.  Every alternative
starts and ends with a word character, so the `\b` assertions reduce to:
the character before the match start and the character after the match
end (if any) are not word characters. -/

/-- One token of a keyword pattern: a literal character or `\s+`. -/
inductive PatTok where
  | lit : Char → PatTok
  | wsPlus : PatTok
  deriving DecidableEq, Repr

/-- Make a pattern out of a plain literal string. -/
def patOf (s : String) : List PatTok := s.data.map PatTok.lit

/-- Match a pattern at the head of `l`; return the suffix after the
match.  `\s+` greedily takes a whole whitespace run, which is exact here
because every `\s+` in the source regexes is followed by a word
character. -/
def patMatch : List PatTok → List Char → Option (List Char)
  | [], l => some l
  | .lit c :: p, x :: l => if x = c then patMatch p l else none
  | .lit _ :: _, [] => none
  | .wsPlus :: p, l =>
    match l.takeWhile jsWs with
    | [] => none
    | _ => patMatch p (l.dropWhile jsWs)

/-- Does some alternative match at the head of `l`, with the `\b` at the
end of the match satisfied?  Returns the suffix after the first matching
alternative (JS alternation preference order). -/
def altsMatchHere (alts : List (List PatTok)) (l : List Char) : Option (List Char) :=
  alts.firstM (fun a =>
    match patMatch a l with
    | some rest =>
      match rest with
      | [] => some rest
      | c :: _ => if jsWordChar c then none else some rest
    | none => none)

/-- Scan for the leftmost match of `\b(alt1|alt2|...)\b` in `l` starting
at 0-based index `i`; `prevWord` tells whether the character just before
position `i` is a word character (for the leading `\b`).  Returns the
end index of the match (the JS `lastIndex` after a successful
`.test`). -/
def scanMatch (alts : List (List PatTok)) : List Char → Nat → Bool → Option Nat
  | [], _, _ => none
  | c :: rest, i, prevWord =>
    match if prevWord then none else altsMatchHere alts (c :: rest) with
    | some suffix => some (i + ((c :: rest).length - suffix.length))
    | none => scanMatch alts rest (i + 1) (jsWordChar c)

/-- `re.test(s)` for a keyword regex starting the search at index `from`
(the JS `lastIndex` of a `g`-flagged regex); yields the new `lastIndex`
on success. -/
def reTestFrom (alts : List (List PatTok)) (l : List Char) (start : Nat) : Option Nat :=
  scanMatch alts (l.drop start) start
    (if start = 0 then false else jsWordChar (l.getD (start - 1) ' '))

/-- Plain stateless `re.test(s)` (search from index 0). -/
def reTest (alts : List (List PatTok)) (l : List Char) : Bool :=
  (reTestFrom alts l 0).isSome

/-! ### `heuristicTldr` -/

/-- Sentence split `cleaned.split(/(?<=[.!?])\s+/)`: break at every
whitespace run preceded by `.`, `!` or `?`.  `cur` is the reversed piece
under construction, `inSep` is true while consuming the separator run. -/
def sentSplitAux : List Char → List Char → Bool → List (List Char)
  | [], cur, _ => [cur.reverse]
  | c :: rest, cur, inSep =>
    if inSep then
      if jsWs c then sentSplitAux rest cur true
      else sentSplitAux rest [c] false
    else if jsWs c && (cur.headD ' ' = '.' || cur.headD ' ' = '!' || cur.headD ' ' = '?') then
      cur.reverse :: sentSplitAux rest [] true
    else sentSplitAux rest (c :: cur) false

def sentSplit (l : List Char) : List (List Char) := sentSplitAux l [] false

/-- First priority group of `heuristicTldr`:
`/\b(found|showed|demonstrated|concluded|results?|findings?|significant|improved|reduced|increased)\b/i`. -/
def tldrGroup1 : List (List PatTok) :=
  [patOf "found", patOf "showed", patOf "demonstrated", patOf "concluded",
   patOf "results", patOf "result", patOf "findings", patOf "finding",
   patOf "significant", patOf "improved", patOf "reduced", patOf "increased"]

/-- Second priority group:
`/\b(conclusion|summary|takeaway|key\s+point|main\s+finding)\b/i`. -/
def tldrGroup2 : List (List PatTok) :=
  [patOf "conclusion", patOf "summary", patOf "takeaway",
   patOf "key" ++ [PatTok.wsPlus] ++ patOf "point",
   patOf "main" ++ [PatTok.wsPlus] ++ patOf "finding"]

/-- Third priority group: `/\b(aim|objective|purpose|goal)\b/i`. -/
def tldrGroup3 : List (List PatTok) :=
  [patOf "aim", patOf "objective", patOf "purpose", patOf "goal"]

/-- Case-insensitive test of one priority group against a sentence
(the source regexes carry the `i` flag). -/
def tldrGroupTest (alts : List (List PatTok)) (s : List Char) : Bool :=
  reTest alts (s.map Char.toLower)

/-- Final normalization of `heuristicTldr`: word-cap at 50 via
`split(/\s+/)`, then `replace(/\s*[.,;]\s*$/, "").trim() + "."`. -/
def stripTrailingPunctWs (l : List Char) : List Char :=
  let r := l.reverse.dropWhile jsWs
  match r with
  | c :: r' => if c = '.' || c = ',' || c = ';' then (r'.dropWhile jsWs).reverse else l
  | [] => l

def finalizeTldr (bestSentence : List Char) : List Char :=
  let words := jsSplitWs bestSentence
  let trimmed := if 50 < words.length then joinSep [' '] (words.take 50) else bestSentence
  jsTrim (stripTrailingPunctWs trimmed) ++ ['.']

/-- `heuristicTldr` from src/routes/auth.js. -/
def heuristicTldr (text : String) : String :=
  if text = "" then "No short takeaway available."
  else
    let cleaned := jsTrim (collapseWs text.data)
    let sentences := ((sentSplit cleaned).map jsTrim).filter (fun s => 20 < s.length)
    let found :=
      [tldrGroup1, tldrGroup2, tldrGroup3].firstM
        (fun g => sentences.find? (fun s => tldrGroupTest g s))
    let best0 := found.getD []
    let best1 := if best0 = [] && sentences ≠ [] then sentences.headD [] else best0
    let best2 := if best1 = [] then cleaned.take 150 else best1
    String.mk (finalizeTldr best2)

example : heuristicTldr "" = "No short takeaway available." := by decide
example : heuristicTldr "This study found that X improved performance by 20%. Researchers recommend further testing." =
    "This study found that X improved performance by 20%." := by decide
example : heuristicTldr "Zebras wander across the open plains at night..." =
    "Zebras wander across the open plains at night..." := by decide
example : heuristicTldr "   " = "." := by decide

/-! ### Methods checklist: research-approach classification

The `mode === "methods"` branch lower-cases the text and then runs

```
if (mixedRe.test(lower)) approach = "Mixed Methods";
else if (quantitativeRe.test(lower) && qualitativeRe.test(lower)) approach = "Mixed Methods";
else if (quantitativeRe.test(lower)) approach = "Quantitative";
else if (qualitativeRe.test(lower)) approach = "Qualitative";
```

All three regexes carry the `g` flag, so `.test` is stateful: a
successful test advances the regex's `lastIndex` to the end of the
match, and the next `.test` on the same regex object resumes there; a
failed test resets `lastIndex` to 0.  The model threads these indices
explicitly through the if-chain. -/

def quantAlts : List (List PatTok) :=
  [patOf "quantitative", patOf "statistical", patOf "numerical",
   patOf "experiment", patOf "survey", patOf "measurement", patOf "anova",
   patOf "regression", patOf "t-test", patOf "t test", patOf "ttest",
   patOf "pca", patOf "svm", patOf "spm1d",
   patOf "chi-square", patOf "chi square", patOf "chisquare",
   patOf "pearson", patOf "spearman"]

def qualAlts : List (List PatTok) :=
  [patOf "qualitative", patOf "phenomenological", patOf "thematic",
   patOf "interview", patOf "focus group", patOf "content analysis",
   patOf "narrative", patOf "case study", patOf "grounded theory"]

def mixedAlts : List (List PatTok) :=
  [patOf "mixed-methods", patOf "mixed-method", patOf "mixed methods",
   patOf "mixed method", patOf "mixedmethods", patOf "mixedmethod"]

/-- The `approach` value computed by the methods checklist on the
lower-cased text, with the stateful `g`-flag `.test` semantics. -/
def approachOf (lower : List Char) : String :=
  match reTestFrom mixedAlts lower 0 with
  | some _ => "Mixed Methods"
  | none =>
    match reTestFrom quantAlts lower 0 with
    | some quantIdx =>
      -- quantitativeRe.test succeeded; its lastIndex is now quantIdx
      match reTestFrom qualAlts lower 0 with
      | some _ => "Mixed Methods"
      | none =>
        -- third line re-tests quantitativeRe, resuming at quantIdx
        match reTestFrom quantAlts lower quantIdx with
        | some _ => "Quantitative"
        | none =>
          -- quantitativeRe.lastIndex reset; qualitativeRe re-tested from 0
          match reTestFrom qualAlts lower 0 with
          | some _ => "Qualitative"
          | none => ""
    | none =>
      -- short-circuit: qualitativeRe was not consulted on the second line
      match reTestFrom quantAlts lower 0 with
      | some _ => "Quantitative"
      | none =>
        match reTestFrom qualAlts lower 0 with
        | some _ => "Qualitative"
        | none => ""

/-- The research-approach classification of `mode === "methods"`:
`const lower = text.toLowerCase()` followed by the if-chain above.  The
checklist prints a `Research Approach` line only when the result is
non-empty. -/
def methodsApproach (text : String) : String :=
  approachOf (text.data.map Char.toLower)

example : methodsApproach "A quantitative approach was used" = "" := by decide
example : methodsApproach "We ran a survey and a regression model" = "Quantitative" := by decide
example : methodsApproach "A qualitative interview was conducted" = "Qualitative" := by decide
example : methodsApproach "quantitative and qualitative data" = "Mixed Methods" := by decide
example : methodsApproach "a mixed methods design" = "Mixed Methods" := by decide

/-! ### Recommendations: final processing

The `mode === "recommendations"` branch accumulates candidate sentences
from six cascaded strategies and then runs a final filtering pass:
length guard, exclusion patterns, inclusion keywords, deduplication by a
normalized 60-character prefix key, and a cap of 12 entries.  The final
pass is modelled here as a function of the accumulated candidate list
(for any input text the cascade produces some such list). -/

/-- `\d+` at the end of the exclusion patterns: at least one digit. -/
def digitsThen (l : List Char) : Option (List Char) :=
  match l.takeWhile jsDigit with
  | [] => none
  | _ => some (l.dropWhile jsDigit)

/-- Anchored (`^...`) pattern test at the start of the string. -/
def anchoredTest (p : List PatTok) (l : List Char) : Bool :=
  (patMatch p l).isSome

/-- Unanchored search: does the pattern match at any position? -/
def patSearch (p : List PatTok) : List Char → Bool
  | [] => (patMatch p []).isSome
  | c :: rest => (patMatch p (c :: rest)).isSome || patSearch p rest

/-- `lower.includes(sub)`. -/
def jsIncludes (hay : List Char) (needle : String) : Bool :=
  patSearch (patOf needle) hay

/-- Pattern text `a\s+b\s+c...` from space-separated words. -/
def wsSeq (words : List String) : List PatTok :=
  joinSepTok (words.map patOf)
where
  joinSepTok : List (List PatTok) → List PatTok
    | [] => []
    | [w] => w
    | w :: rest => w ++ [PatTok.wsPlus] ++ joinSepTok rest

/-- Anchored pattern ending in `\s+\d+`, for
`/^Future\s+Research\s+\d+/i` and friends. -/
def anchoredWsDigits (words : List String) (l : List Char) : Bool :=
  match patMatch (wsSeq words ++ [PatTok.wsPlus]) l with
  | none => false
  | some rest => (digitsThen rest).isSome

/-- The exclusion patterns of the final pass, applied to the trimmed
candidate (`pattern.test(trimmed)`); all but the all-caps pattern carry
the `i` flag and are therefore tested on the lower-cased string with
lower-cased pattern text. -/
def excludeTest (trimmed : List Char) : Bool :=
  let lower := trimmed.map Char.toLower
  anchoredTest (wsSeq ["to", "address", "the"] ++ [PatTok.wsPlus] ++ patOf "issue") lower ||
  anchoredTest (wsSeq ["to", "address", "the"] ++ [PatTok.wsPlus] ++ patOf "following questions") lower ||
  anchoredTest (wsSeq ["to", "address", "the"] ++ [PatTok.wsPlus] ++ patOf "following question") lower ||
  anchoredTest (wsSeq ["to", "add", "an", "unnecessary"]) lower ||
  anchoredTest (wsSeq ["to", "address", "climate", "change"]) lower ||
  patSearch (wsSeq ["government", "dropped", "the", "prices"]) lower ||
  anchoredWsDigits ["future", "research"] lower ||
  anchoredWsDigits ["conclusion"] lower ||
  anchoredWsDigits ["chapter"] lower ||
  (10 ≤ trimmed.length && trimmed.all (fun c => (65 ≤ c.toNat && c.toNat ≤ 90) || jsWs c))

/-- The inclusion test (`isValid`) of the final pass, on the lower-cased
candidate. -/
def isValidRec (lower : List Char) : Bool :=
  jsIncludes lower "should" || jsIncludes lower "recommend" ||
  jsIncludes lower "suggest" || jsIncludes lower "need to" ||
  jsIncludes lower "would benefit" || jsIncludes lower "better" ||
  jsIncludes lower "improve" || jsIncludes lower "add" ||
  jsIncludes lower "consider" || jsIncludes lower "investigate" ||
  jsIncludes lower "examine" ||
  "to ".data.isPrefixOf lower || "administration ".data.isPrefixOf lower ||
  "the study ".data.isPrefixOf lower ||
  jsIncludes lower "value of" || jsIncludes lower "positive interventions" ||
  jsIncludes lower "freshmen need" || jsIncludes lower "more studies" ||
  jsIncludes lower "further studies" || jsIncludes lower "research on" ||
  jsIncludes lower "effects of"

/-- The deduplication key:
`lower.replace(/[^\w\s]/g, '').replace(/\s+/g, ' ').substring(0, 60)`. -/
def dedupKeyOfLower (lower : List Char) : List Char :=
  (collapseWs (lower.filter (fun c => jsWordChar c || jsWs c))).take 60

/-- The deduplication key of a final-list entry (lower-casing first, as
the loop does before building the key). -/
def dedupKey (s : List Char) : List Char :=
  dedupKeyOfLower (s.map Char.toLower)

/-- `if (!/[.!?]$/.test(finalRec)) finalRec += '.'`. -/
def forceTerminalPunct (t : List Char) : List Char :=
  match t.getLast? with
  | some c => if c = '.' || c = '!' || c = '?' then t else t ++ ['.']
  | none => t ++ ['.']

/-- `if (... && !/^[A-Z]/.test(finalRec)) finalRec = charAt(0).toUpperCase() + slice(1)`. -/
def capitalizeFirst (t : List Char) : List Char :=
  match t with
  | [] => []
  | c :: rest => if 65 ≤ c.toNat && c.toNat ≤ 90 then c :: rest else c.toUpper :: rest

/-- Final formatting of an accepted candidate: force terminal
punctuation and a capital first letter. -/
def finalFormatRec (t : List Char) : List Char :=
  capitalizeFirst (forceTerminalPunct t)

/-- The final filter-dedup loop over the accumulated candidates.  `seen`
is the set of already-used keys, `out` the accepted entries
(reversed). -/
def finalProcessAux : List String → List (List Char) → List (List Char) → List (List Char)
  | [], _, out => out.reverse
  | rec :: rest, seen, out =>
    if rec = "" || (jsTrim rec.data).length < 25 then finalProcessAux rest seen out
    else
      let t := jsTrim rec.data
      let lower := t.map Char.toLower
      if excludeTest t then finalProcessAux rest seen out
      else if !isValidRec lower then finalProcessAux rest seen out
      else
        let key := dedupKeyOfLower lower
        if seen.contains key then finalProcessAux rest seen out
        else finalProcessAux rest (key :: seen) (finalFormatRec t :: out)

/-- The final recommendations list: filtered, deduplicated, capped at 12
(`finalRecommendations.slice(0, 12)`). -/
def finalRecommendations (candidates : List String) : List String :=
  ((finalProcessAux candidates [] []).take 12).map (fun l => String.mk l)

example :
    finalRecommendations
      ["Students should practice the new routine every day",
       "Students should practice the new routine every day."] =
    ["Students should practice the new routine every day."] := by decide
example :
    finalRecommendations ["short should", "THIS IS AN ALL CAPS HEADER LINE",
      "Teachers would benefit from additional training sessions"] =
    ["Teachers would benefit from additional training sessions."] := by decide

/-! ### Word counting

`wordCount` counts maximal non-whitespace runs; it is the natural "number
of words" measure used to state the 50-word bound of the TL;DR claims.
The boolean argument of `wcAux` is true while inside a word. -/

def wcAux : List Char → Bool → Nat
  | [], _ => 0
  | c :: rest, inW =>
    if jsWs c then wcAux rest false
    else (if inW then 0 else 1) + wcAux rest true

def wordCount (l : List Char) : Nat := wcAux l false

/-- The in-word state after consuming `l`, starting from state `b`. -/
def wcState (b : Bool) : List Char → Bool
  | [] => b
  | c :: rest => wcState (!jsWs c) rest

theorem wcState_append (x y : List Char) (b : Bool) :
    wcState b (x ++ y) = wcState (wcState b x) y := by
  induction x generalizing b with
  | nil => rfl
  | cons c rest ih => simp [wcState, ih]

theorem wcAux_append (x y : List Char) (b : Bool) :
    wcAux (x ++ y) b = wcAux x b + wcAux y (wcState b x) := by
  induction x generalizing b with
  | nil => simp [wcAux, wcState]
  | cons c rest ih =>
    simp only [List.cons_append, wcAux, wcState]
    by_cases h : jsWs c
    · simp [h, ih]
    · simp [h, ih]
      omega

theorem wcAux_le_of_prefix (x r : List Char) (b : Bool) :
    wcAux x b ≤ wcAux (x ++ r) b := by
  rw [wcAux_append]; omega

theorem wcAux_true_le (x : List Char) : wcAux x true ≤ wcAux x false := by
  induction x with
  | nil => simp [wcAux]
  | cons c rest ih =>
    by_cases h : jsWs c
    · simp [wcAux, h, ih]
    · simp [wcAux, h]

theorem wcAux_dropWhile_ws (x : List Char) :
    wcAux (x.dropWhile jsWs) false = wcAux x false := by
  induction x with
  | nil => rfl
  | cons c rest ih =>
    by_cases h : jsWs c <;> simp [List.dropWhile, h, wcAux, ih]

/-- A whitespace-free word counts at most one. -/
theorem wcAux_wsFree_le_one (w : List Char) (hw : ∀ c ∈ w, jsWs c = false) :
    wcAux w false ≤ 1 ∧ wcAux w true = 0 := by
  induction w with
  | nil => simp [wcAux]
  | cons c rest ih =>
    have hc : jsWs c = false := hw c (List.mem_cons_self c rest)
    have ih' := ih (fun x hx => hw x (List.mem_cons_of_mem c hx))
    simp [wcAux, hc]
    omega

/-- Joining at most `n` whitespace-free words with single spaces yields
at most `n` words. -/
theorem wordCount_joinSep_le (ws : List (List Char))
    (h : ∀ w ∈ ws, ∀ c ∈ w, jsWs c = false) :
    wordCount (joinSep [' '] ws) ≤ ws.length := by
  induction ws with
  | nil => simp [joinSep, wordCount, wcAux]
  | cons w rest ih =>
    have hw := h w (List.mem_cons_self w rest)
    have h' : ∀ w' ∈ rest, ∀ c ∈ w', jsWs c = false :=
      fun w' hw' => h w' (List.mem_cons_of_mem w hw')
    match rest with
    | [] =>
      simp only [joinSep, wordCount, List.length_cons, List.length_nil]
      have := wcAux_wsFree_le_one w hw
      omega
    | r :: rs =>
      simp only [joinSep, wordCount] at *
      rw [wcAux_append, wcAux_append]
      have h1 := wcAux_wsFree_le_one w hw
      have h2 : wcAux [' '] (wcState false w) = 0 := by
        cases wcState false w <;> simp [wcAux, jsWs]
      have h3 : wcState (wcState false w) [' '] = false := by
        simp [wcState, jsWs]
      rw [wcState_append, h3]
      have h4 : wcAux (joinSep [' '] (r :: rs)) false ≤ (r :: rs).length := ih h'
      simp only [List.length_cons] at *
      omega

/-- Every piece produced by the whitespace splitter is whitespace-free. -/
theorem jsSplitWsAux_wsFree (l : List Char) :
    ∀ cur aft, (∀ c ∈ cur, jsWs c = false) →
      ∀ p ∈ jsSplitWsAux l cur aft, ∀ c ∈ p, jsWs c = false := by
  induction l with
  | nil =>
    intro cur _ hcur p hp c hc
    simp only [jsSplitWsAux, List.mem_singleton] at hp
    subst hp
    exact hcur c (List.mem_reverse.mp hc)
  | cons x rest ih =>
    intro cur aft hcur p hp c hc
    cases hx : jsWs x with
    | true =>
      rw [jsSplitWsAux, if_pos hx] at hp
      cases aft with
      | true =>
        rw [if_pos rfl] at hp
        exact ih [] true (by simp) p hp c hc
      | false =>
        rw [if_neg (by simp)] at hp
        rcases List.mem_cons.mp hp with h | h
        · subst h; exact hcur c (List.mem_reverse.mp hc)
        · exact ih [] true (by simp) p h c hc
    | false =>
      rw [jsSplitWsAux, if_neg (by simp [hx])] at hp
      refine ih (x :: cur) false ?_ p hp c hc
      intro d hd
      rcases List.mem_cons.mp hd with h | h
      · subst h; exact hx
      · exact hcur d h

/-- Words (maximal non-whitespace runs) never outnumber the splitter's
pieces. -/
theorem wcAux_le_splitAux (l : List Char) :
    ∀ cur aft, (aft = true → cur = []) →
      wcAux l (!cur.isEmpty) + (if cur.isEmpty then 0 else 1) ≤
        (jsSplitWsAux l cur aft).length := by
  induction l with
  | nil =>
    intro cur aft _
    cases cur <;> simp [jsSplitWsAux, wcAux]
  | cons x rest ih =>
    intro cur aft hinv
    cases hx : jsWs x with
    | true =>
      cases aft with
      | true =>
        have hcur : cur = [] := hinv rfl
        subst hcur
        have := ih [] true (fun _ => rfl)
        simp only [jsSplitWsAux, wcAux, hx, if_true, List.isEmpty_nil,
          Bool.not_true] at this ⊢
        omega
      | false =>
        have := ih [] true (fun _ => rfl)
        simp only [jsSplitWsAux, wcAux, hx, if_true, if_false, List.isEmpty_nil,
          Bool.not_true, List.length_cons] at this ⊢
        cases cur <;> simp <;> omega
    | false =>
      have := ih (x :: cur) false (by simp)
      simp only [jsSplitWsAux, wcAux, hx, if_false, List.isEmpty_cons,
        Bool.not_false, Bool.false_eq_true] at this ⊢
      cases cur <;> simp at this ⊢ <;> omega

theorem wordCount_le_splitWs (l : List Char) :
    wordCount l ≤ (jsSplitWs l).length := by
  have := wcAux_le_splitAux l [] false (fun h => by cases h)
  simpa [wordCount, jsSplitWs, List.isEmpty] using this

/-- Dropping a whitespace-satisfying suffix (computed through `reverse`
and `dropWhile`) leaves a prefix of the original list. -/
theorem reverse_dropWhile_suffix (p : Char → Bool) (m : List Char) :
    ∃ t, m.reverse = (m.dropWhile p).reverse ++ t := by
  refine ⟨(m.takeWhile p).reverse, ?_⟩
  conv_lhs => rw [← List.takeWhile_append_dropWhile (p := p) (l := m)]
  rw [List.reverse_append]

/-- `stripTrailingPunctWs` returns a prefix of its argument. -/
theorem stripTrailingPunctWs_prefix (l : List Char) :
    ∃ t, l = stripTrailingPunctWs l ++ t := by
  simp only [stripTrailingPunctWs]
  cases hr : l.reverse.dropWhile jsWs with
  | nil => exact ⟨[], by simp⟩
  | cons c r' =>
    by_cases hc : c = '.' || c = ',' || c = ';'
    · simp only [hc, if_true]
      obtain ⟨t1, ht1⟩ := reverse_dropWhile_suffix jsWs l.reverse
      rw [hr] at ht1
      obtain ⟨t2, ht2⟩ := reverse_dropWhile_suffix jsWs r'
      refine ⟨t2 ++ [c] ++ t1, ?_⟩
      have hl : l = (c :: r').reverse ++ t1 := by rw [← ht1, l.reverse_reverse]
      conv_lhs => rw [hl]
      simp only [List.reverse_cons]
      rw [ht2]
      simp [List.append_assoc]
    · simp only [hc, if_false]
      exact ⟨[], by simp⟩

/-- Trimming cannot increase the word count. -/
theorem wordCount_jsTrim_le (l : List Char) : wordCount (jsTrim l) ≤ wordCount l := by
  unfold jsTrim
  have h1 : wordCount (l.dropWhile jsWs) = wordCount l := wcAux_dropWhile_ws l
  obtain ⟨t, ht⟩ := reverse_dropWhile_suffix jsWs (l.dropWhile jsWs).reverse
  rw [List.reverse_reverse] at ht
  calc wordCount ((l.dropWhile jsWs).reverse.dropWhile jsWs).reverse
      ≤ wordCount (((l.dropWhile jsWs).reverse.dropWhile jsWs).reverse ++ t) :=
        wcAux_le_of_prefix _ _ false
    _ = wordCount (l.dropWhile jsWs) := by rw [← ht]
    _ = wordCount l := h1

/-- The head of a `dropWhile` result fails the predicate. -/
theorem dropWhile_head_false (p : Char → Bool) (m : List Char) (c : Char)
    (r : List Char) (h : m.dropWhile p = c :: r) : p c = false := by
  induction m with
  | nil => simp [List.dropWhile] at h
  | cons x xs ih =>
    by_cases hx : p x
    · rw [List.dropWhile_cons_of_pos hx] at h
      exact ih h
    · rw [List.dropWhile_cons_of_neg hx] at h
      cases h
      simpa using hx

/-- The last character of a trimmed non-empty string is not whitespace,
so the in-word state after it is `true`. -/
theorem wcState_jsTrim (l : List Char) (h : jsTrim l ≠ []) :
    wcState false (jsTrim l) = true := by
  unfold jsTrim at *
  cases hd : (l.dropWhile jsWs).reverse.dropWhile jsWs with
  | nil => rw [hd] at h; simp at h
  | cons c r' =>
    have hc : jsWs c = false := dropWhile_head_false jsWs _ c r' hd
    have hrw : (c :: r').reverse = r'.reverse ++ [c] := by simp
    rw [hrw, wcState_append]
    simp [wcState, hc]

/-- Appending the final `"."` to a trimmed string: one word when the
string is empty, otherwise no change to the word count. -/
theorem wordCount_trim_dot (x : List Char) :
    wordCount (jsTrim x ++ ['.']) ≤ max 1 (wordCount x) := by
  rcases eq_or_ne (jsTrim x) [] with h | h
  · rw [h]
    simp [wordCount, wcAux, jsWs]
  · rw [wordCount, wcAux_append, wcState_jsTrim x h]
    have h1 : wcAux ['.'] true = 0 := by simp [wcAux, jsWs]
    rw [h1]
    have h2 := wordCount_jsTrim_le x
    simp only [wordCount] at *
    omega

/-- The 50-word bound of `finalizeTldr`, for any best-sentence input. -/
theorem wordCount_finalizeTldr_le (bs : List Char) :
    wordCount (finalizeTldr bs) ≤ 50 := by
  simp only [finalizeTldr]
  set words := jsSplitWs bs with hw
  by_cases hlen : 50 < words.length
  · rw [if_pos hlen]
    set x := joinSep [' '] (words.take 50) with hx
    have hfree : ∀ w ∈ words.take 50, ∀ c ∈ w, jsWs c = false := by
      intro w hwmem
      exact jsSplitWsAux_wsFree bs [] false (by simp) w (List.mem_of_mem_take hwmem)
    have hbound : wordCount x ≤ (words.take 50).length :=
      wordCount_joinSep_le _ hfree
    have htake : (words.take 50).length ≤ 50 := by
      simp [List.length_take]
    obtain ⟨t, ht⟩ := stripTrailingPunctWs_prefix x
    have h1 : wordCount (stripTrailingPunctWs x) ≤ wordCount x := by
      conv_rhs => rw [ht]
      exact wcAux_le_of_prefix _ _ false
    have h2 := wordCount_trim_dot (stripTrailingPunctWs x)
    have h3 : wordCount (jsTrim (stripTrailingPunctWs x)) ≤ wordCount x :=
      le_trans (wordCount_jsTrim_le _) h1
    omega
  · rw [if_neg hlen]
    have hbs : wordCount bs ≤ 50 := by
      have := wordCount_le_splitWs bs
      rw [← hw] at this
      omega
    obtain ⟨t, ht⟩ := stripTrailingPunctWs_prefix bs
    have h1 : wordCount (stripTrailingPunctWs bs) ≤ wordCount bs := by
      conv_rhs => rw [ht]
      exact wcAux_le_of_prefix _ _ false
    have h2 := wordCount_trim_dot (stripTrailingPunctWs bs)
    omega

/-! ### Author-parsing invariants -/

/-- No piece of the separator-core split contains a comma: every comma in
the input is itself a separator core. -/
theorem coreSplitAux_no_comma (l cur : List Char) (hcur : ',' ∉ cur) :
    ∀ p ∈ coreSplitAux l cur, ',' ∉ p := by
  induction l, cur using coreSplitAux.induct with
  | case1 cur =>
    intro p hp
    simp only [coreSplitAux, List.mem_singleton] at hp
    subst hp
    simpa using hcur
  | case2 c n d rest2 cur hsep ih =>
    intro p hp
    rw [coreSplitAux, if_pos hsep] at hp
    rcases List.mem_cons.mp hp with h | h
    · subst h; simpa using hcur
    · exact ih (by simp) p h
  | case3 c n d rest2 cur hsep hand ih =>
    intro p hp
    rw [coreSplitAux, if_neg hsep, if_pos hand] at hp
    rcases List.mem_cons.mp hp with h | h
    · subst h; simpa using hcur
    · exact ih (by simp) p h
  | case4 c n d rest2 cur hsep hand ih =>
    intro p hp
    rw [coreSplitAux, if_neg hsep, if_neg hand] at hp
    refine ih ?_ p hp
    intro hmem
    rcases List.mem_cons.mp hmem with h | h
    · subst h; simp at hsep
    · exact hcur h
  | case5 c rest cur hshape hsep ih =>
    intro p hp
    rcases rest with _ | ⟨n, rest'⟩
    · rw [show coreSplitAux [c] cur =
          (if c = ',' || c = ';' || c = '&' then cur.reverse :: coreSplitAux [] []
           else coreSplitAux [] (c :: cur)) from rfl, if_pos hsep] at hp
      rcases List.mem_cons.mp hp with h | h
      · subst h; simpa using hcur
      · exact ih (by simp) p h
    · rcases rest' with _ | ⟨d, rest2⟩
      · rw [show coreSplitAux [c, n] cur =
            (if c = ',' || c = ';' || c = '&' then cur.reverse :: coreSplitAux [n] []
             else coreSplitAux [n] (c :: cur)) from rfl, if_pos hsep] at hp
        rcases List.mem_cons.mp hp with h | h
        · subst h; simpa using hcur
        · exact ih (by simp) p h
      · exact absurd rfl (fun h => hshape n d rest2 h)
  | case6 c rest cur hshape hsep ih =>
    intro p hp
    have hc : c ≠ ',' := by
      intro h; subst h; simp at hsep
    rcases rest with _ | ⟨n, rest'⟩
    · rw [show coreSplitAux [c] cur =
          (if c = ',' || c = ';' || c = '&' then cur.reverse :: coreSplitAux [] []
           else coreSplitAux [] (c :: cur)) from rfl, if_neg hsep] at hp
      refine ih ?_ p hp
      intro hmem
      rcases List.mem_cons.mp hmem with h | h
      · exact hc h.symm
      · exact hcur h
    · rcases rest' with _ | ⟨d, rest2⟩
      · rw [show coreSplitAux [c, n] cur =
            (if c = ',' || c = ';' || c = '&' then cur.reverse :: coreSplitAux [n] []
             else coreSplitAux [n] (c :: cur)) from rfl, if_neg hsep] at hp
        refine ih ?_ p hp
        intro hmem
        rcases List.mem_cons.mp hmem with h | h
        · exact hc h.symm
        · exact hcur h
      · exact absurd rfl (fun h => hshape n d rest2 h)

/-- Characters of a trimmed list come from the original list. -/
theorem mem_of_mem_jsTrim (c : Char) (l : List Char) (h : c ∈ jsTrim l) : c ∈ l := by
  unfold jsTrim at h
  rw [List.mem_reverse] at h
  have h1 := (List.dropWhile_sublist (l := (l.dropWhile jsWs).reverse) (p := jsWs)).subset h
  rw [List.mem_reverse] at h1
  exact (List.dropWhile_sublist (l := l) (p := jsWs)).subset h1

/-- Tokens of the author splitter contain no comma. -/
theorem authorTokens_no_comma (raw : List Char) :
    ∀ t ∈ authorTokens raw, ',' ∉ t := by
  intro t ht hmem
  unfold authorTokens at ht
  obtain ⟨ht', _⟩ := List.mem_filter.mp ht
  obtain ⟨p, hp, rfl⟩ := List.mem_map.mp ht'
  exact coreSplitAux_no_comma raw [] (by simp) p hp (mem_of_mem_jsTrim ',' p hmem)

/-- Removing the trailing `,\s*` of an entry keeps its (non-comma) first
character and leaves it non-empty. -/
theorem stripTrailingCommaWs_head (l : List Char) (c : Char)
    (hd : l.head? = some c) (hc : c ≠ ',') :
    stripTrailingCommaWs l ≠ [] ∧ (stripTrailingCommaWs l).head? = some c := by
  cases hr : l.reverse.dropWhile jsWs with
  | nil =>
    have hstrip : stripTrailingCommaWs l = l := by
      simp only [stripTrailingCommaWs, hr]
    rw [hstrip]
    exact ⟨fun h => by subst h; simp at hd, hd⟩
  | cons x r' =>
    by_cases hx : x = ','
    · subst hx
      have hstrip : stripTrailingCommaWs l = r'.reverse := by
        simp only [stripTrailingCommaWs, hr]
      have hdec : l.reverse.takeWhile jsWs ++ (',' :: r') = l.reverse := by
        rw [← hr]
        exact List.takeWhile_append_dropWhile jsWs l.reverse
      have hl : l = r'.reverse ++ ',' :: (l.reverse.takeWhile jsWs).reverse := by
        conv_lhs => rw [← l.reverse_reverse, ← hdec]
        simp
      rw [hstrip]
      cases hr2 : r'.reverse with
      | nil =>
        rw [hl, hr2] at hd
        simp at hd
        exact absurd hd.symm hc
      | cons z zs =>
        refine ⟨by simp, ?_⟩
        rw [hl, hr2, List.head?_append] at hd
        simpa using hd
    · have hstrip : stripTrailingCommaWs l = l := by
        simp only [stripTrailingCommaWs, hr]
        cases hxc : x
        simp_all [Char.ext_iff]
      rw [hstrip]
      exact ⟨fun h => by subst h; simp at hd, hd⟩

/-- `Char.ofNat` on the basic-latin range is faithful. -/
theorem char_toNat_ofNat (n : Nat) (h1 : 65 ≤ n) (h2 : n ≤ 122) :
    (Char.ofNat n).toNat = n := by
  unfold Char.ofNat
  split
  · rfl
  · rename_i h
    exact absurd (Or.inl (by omega)) h

/-- Upper-casing never produces a comma from a non-comma. -/
theorem toUpper_ne_comma (c : Char) (h : c ≠ ',') : c.toUpper ≠ ',' := by
  have hdef : c.toUpper =
      if c.toNat ≥ 97 ∧ c.toNat ≤ 122 then Char.ofNat (c.toNat - 32) else c := rfl
  rw [hdef]
  split
  · rename_i hrange
    intro heq
    have := congrArg Char.toNat heq
    rw [char_toNat_ofNat (c.toNat - 32) (by omega) (by omega)] at this
    have h44 : (',' : Char).toNat = 44 := rfl
    omega
  · exact h

/-- Characters of a split piece come from the accumulator or the input. -/
theorem jsSplitWsAux_subset (l : List Char) :
    ∀ cur aft, ∀ p ∈ jsSplitWsAux l cur aft, ∀ c ∈ p, c ∈ cur ∨ c ∈ l := by
  induction l with
  | nil =>
    intro cur _ p hp c hc
    simp only [jsSplitWsAux, List.mem_singleton] at hp
    subst hp
    exact Or.inl (List.mem_reverse.mp hc)
  | cons x rest ih =>
    intro cur aft p hp c hc
    cases hx : jsWs x with
    | true =>
      rw [jsSplitWsAux, if_pos hx] at hp
      cases aft with
      | true =>
        rw [if_pos rfl] at hp
        rcases ih [] true p hp c hc with h | h
        · simp at h
        · exact Or.inr (List.mem_cons_of_mem x h)
      | false =>
        rw [if_neg (by simp)] at hp
        rcases List.mem_cons.mp hp with h | h
        · subst h; exact Or.inl (List.mem_reverse.mp hc)
        · rcases ih [] true p h c hc with h2 | h2
          · simp at h2
          · exact Or.inr (List.mem_cons_of_mem x h2)
    | false =>
      rw [jsSplitWsAux, if_neg (by simp [hx])] at hp
      rcases ih (x :: cur) false p hp c hc with h | h
      · rcases List.mem_cons.mp h with h2 | h2
        · exact Or.inr (by rw [h2]; exact List.mem_cons_self x rest)
        · exact Or.inl h2
      · exact Or.inr (List.mem_cons_of_mem x h)

/-- The first piece of the splitter extends the accumulator. -/
theorem jsSplitWsAux_first (l : List Char) :
    ∀ cur, ∃ p rest', jsSplitWsAux l cur false = (cur.reverse ++ p) :: rest' := by
  induction l with
  | nil =>
    intro cur
    exact ⟨[], [], by simp [jsSplitWsAux]⟩
  | cons x rest ih =>
    intro cur
    cases hx : jsWs x with
    | true =>
      refine ⟨[], jsSplitWsAux rest [] true, ?_⟩
      rw [jsSplitWsAux, if_pos hx, if_neg (by simp)]
      simp
    | false =>
      obtain ⟨p, rest', hp⟩ := ih (x :: cur)
      refine ⟨x :: p, rest', ?_⟩
      rw [jsSplitWsAux, if_neg (by simp [hx]), hp]
      simp

/-- The head of a non-empty trimmed list is not whitespace. -/
theorem jsTrim_head_not_ws (l : List Char) (c : Char) (q : List Char)
    (h : jsTrim l = c :: q) : jsWs c = false := by
  obtain ⟨t, ht⟩ := reverse_dropWhile_suffix jsWs (l.dropWhile jsWs).reverse
  rw [List.reverse_reverse] at ht
  have : l.dropWhile jsWs = jsTrim l ++ t := ht
  rw [h] at this
  exact dropWhile_head_false jsWs l c (q ++ t) (by simpa using this)

/-- The filtered whitespace-split of a non-empty trimmed token is
non-empty. -/
theorem filtered_split_ne_nil (token : List Char) (c : Char) (q : List Char)
    (htok : token = c :: q) (hc : jsWs c = false) :
    (jsSplitWs token).filter (fun p => p ≠ []) ≠ [] := by
  subst htok
  obtain ⟨p, rest', hp⟩ := jsSplitWsAux_first q [c]
  have : jsSplitWs (c :: q) = (c :: p) :: rest' := by
    rw [jsSplitWs, jsSplitWsAux, if_neg (by simp [hc])]
    simpa using hp
  have hmem : (c :: p) ∈ (jsSplitWs (c :: q)).filter (fun p => p ≠ []) := by
    rw [this]
    exact List.mem_filter.mpr ⟨List.mem_cons_self _ _, by simp⟩
  exact List.ne_nil_of_mem hmem

/-- The last-name component computed for a comma-free non-empty trimmed
token is non-empty and does not start with a comma. -/
theorem tokenFML_last (token : List Char) (c0 : Char) (q0 : List Char)
    (htok : token = c0 :: q0) (hc0 : jsWs c0 = false) (hcomma : ',' ∉ token) :
    ∃ d, d ≠ ',' ∧ ((tokenFML token).2.2).head? = some d := by
  have hcontains : token.contains ',' = false := by
    simpa using hcomma
  have hparts_ne : (jsSplitWs token).filter (fun p => p ≠ []) ≠ [] :=
    filtered_split_ne_nil token c0 q0 htok hc0
  have hmem_fact : ∀ p ∈ (jsSplitWs token).filter (fun p => p ≠ []),
      p ≠ [] ∧ ',' ∉ p := by
    intro p hp
    obtain ⟨hp1, hp2⟩ := List.mem_filter.mp hp
    refine ⟨by simpa using hp2, fun hmem => ?_⟩
    rcases jsSplitWsAux_subset token [] false p hp1 ',' hmem with h | h
    · simp at h
    · exact hcomma h
  have hcap : ∀ p, p ≠ [] → ',' ∉ p → ∃ d, d ≠ ',' ∧ (cap p).head? = some d := by
    intro p hne hnc
    cases p with
    | nil => exact absurd rfl hne
    | cons d r =>
      refine ⟨d.toUpper, ?_, by simp [cap]⟩
      exact toUpper_ne_comma d (fun h => hnc (by rw [h]; exact List.mem_cons_self _ _))
  simp only [tokenFML, hcontains, Bool.false_eq_true, if_false]
  set parts := (jsSplitWs token).filter (fun p => p ≠ []) with hpartsdef
  by_cases hlen : 2 ≤ parts.length
  · rw [if_pos hlen]
    have hglast : ∃ g, parts.getLast? = some g := by
      cases hg : parts.getLast? with
      | none => rw [List.getLast?_eq_none_iff] at hg; exact absurd hg hparts_ne
      | some g => exact ⟨g, rfl⟩
    obtain ⟨g, hg⟩ := hglast
    have hgmem : g ∈ parts := List.mem_of_mem_getLast? hg
    obtain ⟨hg1, hg2⟩ := hmem_fact g hgmem
    obtain ⟨d, hd1, hd2⟩ := hcap g hg1 hg2
    exact ⟨d, hd1, by simpa [hg] using hd2⟩
  · rw [if_neg hlen]
    cases hp : parts with
    | nil => exact absurd hp hparts_ne
    | cons p ps =>
      have hpmem : p ∈ parts := by rw [hp]; exact List.mem_cons_self _ _
      obtain ⟨hp1, hp2⟩ := hmem_fact p hpmem
      obtain ⟨d, hd1, hd2⟩ := hcap p hp1 hp2
      exact ⟨d, hd1, by simpa [hp] using hd2⟩

/-- Every entry built from a comma-free token is non-empty and starts
with a non-comma character (so its `"Last"` component is non-empty). -/
theorem entryBody_head (token : List Char) (c0 : Char) (q0 : List Char)
    (htok : token = c0 :: q0) (hc0 : jsWs c0 = false) (hcomma : ',' ∉ token) :
    entryBody token ≠ [] ∧
      ∃ d, d ≠ ',' ∧ (entryBody token).head? = some d := by
  obtain ⟨d, hd1, hd2⟩ := tokenFML_last token c0 q0 htok hc0 hcomma
  have hlast_ne : (tokenFML token).2.2 ≠ [] := by
    intro h; rw [h] at hd2; simp at hd2
  simp only [entryBody]
  have hhd : ((tokenFML token).2.2 ++ [',', ' '] ++
      joinSep [' ']
        ((((tokenFML token).1 ::
            (jsSplitWs (tokenFML token).2.1).filter (fun p => p ≠ [])).map
          (fun w => match w with
            | [] => []
            | c :: _ => [c.toUpper, '.'])))).head? = some d := by
    rw [List.append_assoc, List.head?_append]
    cases hh : ((tokenFML token).2.2).head? with
    | none => rw [List.head?_eq_none_iff] at hh; exact absurd hh hlast_ne
    | some z =>
      rw [hh] at hd2
      simp [hd2]
  obtain ⟨h1, h2⟩ := stripTrailingCommaWs_head _ d hhd hd1
  exact ⟨h1, d, hd1, h2⟩

/-! ### Claims C1, C2, C10: author parsing -/

/-- C1 (counterexample): the claim says a token containing a comma is
parsed as `"Last, First Middle"`, so that `"Dela Cruz, Juan"` yields the
single entry `"Cruz, J."`.  On the code the splitter consumes the comma
first, so this input does not produce `["Cruz, J."]`. -/
theorem claim_C1_counterexample :
    parseAuthorsToAPAList "Dela Cruz, Juan" ≠ ["Cruz, J."] := by decide

/-- C1 (amended): the author splitter consumes every comma as a
separator before tokens are inspected, so no token ever contains a comma
(the `"Last, First Middle"` branch is unreachable), and
`"Dela Cruz, Juan"` is split into two tokens, yielding the two entries
`"Cruz, D."` and `"Juan"` instead of the single `"Cruz, J."`. -/
theorem claim_C1_amended :
    (∀ (s : String) (t : List Char), t ∈ authorTokens (jsTrim s.data) → ',' ∉ t) ∧
      parseAuthorsToAPAList "Dela Cruz, Juan" = ["Cruz, D.", "Juan"] :=
  ⟨fun s t ht => authorTokens_no_comma (jsTrim s.data) t ht, by decide⟩

/-- C1 (witness): the amended theorem applied to the concrete input
`"Dela Cruz, Juan"` and its first token `"Dela Cruz"`. -/
theorem claim_C1_witness :
    "Dela Cruz".data ∈ authorTokens (jsTrim "Dela Cruz, Juan".data) ∧
      ',' ∉ "Dela Cruz".data :=
  ⟨by decide, claim_C1_amended.1 "Dela Cruz, Juan" "Dela Cruz".data (by decide)⟩

/-- C2: for every author input string (including empty and
whitespace-only ones), every entry returned by `parseAuthorsToAPAList`
has a non-empty last-name component (the part before the first comma),
and the empty input yields exactly `["Author"]`. -/
theorem claim_C2 :
    (∀ (s e : String), e ∈ parseAuthorsToAPAList s →
        e.data.takeWhile (fun c => c ≠ ',') ≠ []) ∧
      parseAuthorsToAPAList "" = ["Author"] := by
  refine ⟨?_, by decide⟩
  intro s e he
  unfold parseAuthorsToAPAList at he
  by_cases hraw : jsTrim s.data = []
  · rw [if_pos hraw] at he
    simp only [List.mem_singleton] at he
    subst he
    decide
  · rw [if_neg hraw] at he
    by_cases hout : (authorTokens (jsTrim s.data)).filterMap entryOfToken = []
    · rw [if_pos hout] at he
      simp only [List.mem_singleton] at he
      subst he
      decide
    · rw [if_neg hout] at he
      obtain ⟨l, hl, rfl⟩ := List.mem_map.mp he
      obtain ⟨t, ht, hte⟩ := List.mem_filterMap.mp hl
      have hnc : ',' ∉ t := authorTokens_no_comma (jsTrim s.data) t ht
      have hnc' : ',' ∉ jsTrim t := fun h => hnc (mem_of_mem_jsTrim ',' t h)
      unfold entryOfToken at hte
      by_cases htrim : jsTrim t = []
      · rw [if_pos htrim] at hte; cases hte
      · rw [if_neg htrim] at hte
        cases hsh : jsTrim t with
        | nil => exact absurd hsh htrim
        | cons c0 q0 =>
          have hws : jsWs c0 = false := jsTrim_head_not_ws t c0 q0 hsh
          obtain ⟨hne, d, hd1, hd2⟩ :=
            entryBody_head (jsTrim t) c0 q0 hsh hws hnc'
          have hl' : l = entryBody (jsTrim t) := by
            cases hte; rfl
          subst hl'
          cases hbody : entryBody (jsTrim t) with
          | nil => exact absurd hbody hne
          | cons b bs =>
            rw [hbody] at hd2
            simp only [List.head?_cons, Option.some.injEq] at hd2
            subst hd2
            simp only [String.data]
            rw [List.takeWhile_cons, if_pos (by simpa using hd1)]
            simp

/-- C2 (witness): the invariant applied to the input
`"Dela Cruz, Juan"` and its first returned entry `"Cruz, D."`. -/
theorem claim_C2_witness :
    "Cruz, D." ∈ parseAuthorsToAPAList "Dela Cruz, Juan" ∧
      "Cruz, D.".data.takeWhile (fun c => c ≠ ',') ≠ [] :=
  ⟨by decide, claim_C2.1 "Dela Cruz, Juan" "Cruz, D." (by decide)⟩

/-- C10: the author splitter treats every occurrence of the substring
`"and"` as a separator regardless of word boundaries, so the single-word
surname `"Fernandez"` is split apart and yields two author entries. -/
theorem claim_C10 :
    parseAuthorsToAPAList "Fernandez" = ["Fern", "Ez"] ∧
      1 < (parseAuthorsToAPAList "Fernandez").length := by decide

/-! ### Claims C3, C4, C5, C6: TL;DR shape and the Inference Client -/

/-- A string ends in exactly one period: the last character is `.` and
the character before it is not another `.`. -/
def endsInExactlyOnePeriod (s : String) : Prop :=
  s.data.getLast? = some '.' ∧ s.data.dropLast.getLast? ≠ some '.'

theorem finalizeTldr_ne_nil (bs : List Char) : finalizeTldr bs ≠ [] := by
  simp [finalizeTldr]

theorem finalizeTldr_getLast (bs : List Char) :
    (finalizeTldr bs).getLast? = some '.' := by
  simp [finalizeTldr]

/-- C3 (counterexample): the claim says `heuristicTldr` output ends in
exactly one period; on a sentence ending in an ellipsis the final
`replace(/\s*[.,;]\s*$/, "") + "."` restores the full ellipsis, so the
output ends in three periods. -/
theorem claim_C3_counterexample :
    heuristicTldr "Zebras wander across the open plains at night..." =
        "Zebras wander across the open plains at night..." ∧
      ¬ endsInExactlyOnePeriod
          (heuristicTldr "Zebras wander across the open plains at night...") := by
  constructor
  · decide
  · intro h
    obtain ⟨-, h2⟩ := h
    exact h2 (by decide)

/-- C3 (amended): for every non-empty input text, `heuristicTldr`
returns a non-empty string of at most 50 words ending in a period —
but the period need not be the only trailing punctuation (an ellipsis
or a `?`/`!` before it survives). -/
theorem claim_C3_amended (text : String) (h : text ≠ "") :
    heuristicTldr text ≠ "" ∧ wordCount (heuristicTldr text).data ≤ 50 ∧
      (heuristicTldr text).data.getLast? = some '.' := by
  simp only [heuristicTldr, if_neg h]
  refine ⟨?_, ?_, ?_⟩
  · intro hcontra
    have hdat := congrArg String.data hcontra
    simp only [String.data] at hdat
    exact absurd hdat (finalizeTldr_ne_nil _)
  · exact wordCount_finalizeTldr_le _
  · exact finalizeTldr_getLast _

/-- C3 (witness): the amended theorem at a concrete abstract. -/
theorem claim_C3_witness :
    ("The study found strong results." : String) ≠ "" ∧
      (heuristicTldr "The study found strong results." ≠ "" ∧
        wordCount (heuristicTldr "The study found strong results.").data ≤ 50 ∧
        (heuristicTldr "The study found strong results.").data.getLast? = some '.') :=
  ⟨by decide, claim_C3_amended "The study found strong results." (by decide)⟩

/-- C4 (counterexample): the claim says every non-2xx status other than
503/429 produces a `Failure`.  The code never checks `res.ok`: a 404
response whose JSON body parses and has no `error` field yields a
`Success` on the first attempt. -/
theorem claim_C4_counterexample :
    callHF (fun _ => .response 404 (.value (.jobj [("summary_text", .jstr "oops")]))) 3 =
      (.success "oops", 1, []) := rfl

/-- C4 (amended): a response whose status is neither 503 nor 429 is
never retried: `callHF` stops after that single attempt with no sleeps,
and its result is exactly the settlement of the attempt's
`res.json()` body — `Failure` for malformed JSON or a truthy `error`
field (with that field, an arbitrary JSON value, as the reason), a
`TypeError` thrown past the boundary for a JSON `null` body or a truthy
non-string `summary_text`/`generated_text`, and `Success` with the
extracted trimmed text otherwise, regardless of the HTTP status. -/
theorem claim_C4_amended (behav : Nat → HFAttempt) (tries status : Nat)
    (body : HFBody) (h1 : behav 1 = .response status body)
    (h2 : status ≠ 503) (h3 : status ≠ 429) (h4 : 1 ≤ tries) :
    callHF behav tries = (hfSettle body, 1, []) ∧
      hfSettle .malformed = .failure (.jstr "Invalid JSON from Hugging Face") ∧
      hfSettle (.value .jnull) = .thrown := by
  refine ⟨?_, rfl, rfl⟩
  match tries, h4 with
  | t + 1, _ =>
    show callHFGo behav 1 t 800 [] = (hfSettle body, 1, [])
    rw [callHFGo.eq_def]
    have hcond : (status = 503 || status = 429) = false := by
      simp [h2, h3]
    simp [h1, hcond]

/-- C4 (witness): the amended theorem at a concrete 404-with-clean-JSON
provider behaviour. -/
theorem claim_C4_witness :
    ((fun _ : Nat => HFAttempt.response 404
          (.value (.jobj [("summary_text", .jstr "oops")]))) 1 =
        HFAttempt.response 404 (.value (.jobj [("summary_text", .jstr "oops")])) ∧
      404 ≠ 503 ∧ 404 ≠ 429 ∧ 1 ≤ 3) ∧
      (callHF (fun _ => .response 404 (.value (.jobj [("summary_text", .jstr "oops")]))) 3 =
          (hfSettle (.value (.jobj [("summary_text", .jstr "oops")])), 1, []) ∧
        hfSettle .malformed = .failure (.jstr "Invalid JSON from Hugging Face") ∧
        hfSettle (.value .jnull) = .thrown) :=
  ⟨⟨rfl, by decide, by decide, by decide⟩,
    claim_C4_amended _ 3 404 _ rfl (by decide) (by decide) (by decide)⟩

/-- C5: with a provider that answers 503, 503, then 200, `callHF` with
`tries = 3` succeeds after exactly 3 attempts having slept the strictly
increasing delays 800 ms and 800·1.6 = 1280 ms; with a provider that
always answers 503 it fails after exactly 3 attempts. -/
theorem claim_C5 :
    callHF (fun n => if n ≤ 2 then .response 503 (.value (.jobj []))
        else .response 200 (.value (.jobj [("summary_text", .jstr "ok")]))) 3 =
      (.success "ok", 3, [800, 1280]) ∧
    (800 : ℚ) < 1280 ∧
    callHF (fun _ => .response 503 (.value (.jobj []))) 3 =
      (.failure (.jstr "HF 503: model busy/starting"), 3, [800, 1280]) := by
  refine ⟨?_, by norm_num, ?_⟩
  · simp [callHF, callHFGo, hfSettle, propOrUndef, jsTruthyOpt, jsTruthyV,
      selectedText, orChainText, coalesce]
    norm_num
    all_goals rfl
  · simp [callHF, callHFGo, hfSettle, propOrUndef, jsTruthyOpt, jsTruthyV,
      selectedText, orChainText, coalesce]
    norm_num
    all_goals rfl

/-- C6 (counterexample): the claim says `callHF` never throws past the
Inference Client boundary for any JSON body.  Only `res.json()` is
wrapped in `try`: on the valid JSON body `null` the subsequent
`data.error` access throws a `TypeError`, and on a truthy non-string
`summary_text` the `(text || "").trim()` call throws — both escape
`callHF` (modelled as the `thrown` result). -/
theorem claim_C6_counterexample :
    callHF (fun _ => .response 200 (.value .jnull)) 3 = (.thrown, 1, []) ∧
      callHF (fun _ => .response 200 (.value (.jobj [("summary_text", .jnum 42)]))) 3 =
        (.thrown, 1, []) :=
  ⟨rfl, rfl⟩

/-- C6 (amended): `callHF` returns a tagged result that is exactly one
of `Success{text}` or `Failure{reason}` for every provider behaviour
whose attempts are tame — bodies that are malformed JSON, or non-null
values whose selected `text` is a string (or that fail with a truthy
`error` field); network failures and timeouts are always tame.  A JSON
`null` body or a truthy non-string text field at the settled attempt
instead throws a `TypeError` past the Inference Client boundary. -/
theorem claim_C6_amended (behav : Nat → HFAttempt) (tries : Nat)
    (htame : ((List.range tries).all (fun k => attemptTame (behav (k + 1)))) = true) :
    (∃ t, (callHF behav tries).1 = .success t) ∨
      ∃ r, (callHF behav tries).1 = .failure r := by
  have hnothrow : (callHF behav tries).1 ≠ .thrown := by
    match tries with
    | 0 => intro hc; cases hc
    | t + 1 =>
      show (callHFGo behav 1 t 800 []).1 ≠ .thrown
      refine callHFGo_not_thrown behav t 1 800 [] ?_
      intro k hk1 hk2
      have hmem : k - 1 ∈ List.range (t + 1) := by
        rw [List.mem_range]
        omega
      have := (List.all_eq_true.mp htame) (k - 1) hmem
      have hk : k - 1 + 1 = k := by omega
      rw [hk] at this
      simpa using this
  cases h : (callHF behav tries).1 with
  | success t => exact Or.inl ⟨t, rfl⟩
  | failure r => exact Or.inr ⟨r, rfl⟩
  | thrown => exact absurd h hnothrow

/-- C6 (witness): the amended theorem at a concrete tame behaviour
(200 with a string `summary_text` on every attempt). -/
theorem claim_C6_witness :
    ((List.range 3).all (fun k => attemptTame
        ((fun _ : Nat => HFAttempt.response 200
            (.value (.jobj [("summary_text", .jstr "ok")]))) (k + 1)))) = true ∧
      ((∃ t, (callHF (fun _ => .response 200
            (.value (.jobj [("summary_text", .jstr "ok")]))) 3).1 = .success t) ∨
        ∃ r, (callHF (fun _ => .response 200
            (.value (.jobj [("summary_text", .jstr "ok")]))) 3).1 = .failure r) :=
  ⟨rfl, claim_C6_amended _ 3 rfl⟩

/-- C7: the claim (and the spec) say a text containing only quantitative
keywords is classified `"Quantitative"`.  The three approach regexes
carry the `g` flag but are only used with `.test`, so the second
`quantitativeRe.test` resumes from the end of the first match; with
exactly one quantitative keyword occurrence it fails, and no approach is
assigned at all — the checklist omits the Research Approach line. -/
theorem claim_C7_code_bug :
    methodsApproach "A quantitative approach was used" = "" ∧
      methodsApproach "A quantitative approach was used" ≠ "Quantitative" := by
  decide

/-- C8: citation formatting is deterministic — two runs of the
formatter on identical inputs produce identical APA/IEEE/BibTeX strings
and BibTeX key (the embedding is a pure function), shown together with
the concrete byte-exact output on the spec's example inputs. -/
theorem claim_C8 :
    (∀ author title year : String,
        formatCitations author title year = formatCitations author title year) ∧
      formatCitations "Dela Cruz, Juan" "effects of x on y" "2023" =
        { apa := "Cruz, D., Juan (2023). Effects of x on y."
          ieee := "D. Cruz, Juan, \"Effects of x on y,\" 2023."
          bibtex := "@article\x7bcruz2023,\n  title=\x7beffects of x on y\x7d,\n  author=\x7bCruz, D. and Juan, undefined\x7d,\n  year=\x7b2023\x7d\n\x7d"
          bibkey := "cruz2023" } :=
  ⟨fun _ _ _ => rfl, by decide⟩

/-! ### Claim C9: recommendation dedup and cap -/

/-- Lower-casing after upper-casing equals plain lower-casing (basic
latin). -/
theorem toLower_toUpper (c : Char) : c.toUpper.toLower = c.toLower := by
  have hup : c.toUpper =
      if c.toNat ≥ 97 ∧ c.toNat ≤ 122 then Char.ofNat (c.toNat - 32) else c := rfl
  have hlo : ∀ d : Char, d.toLower =
      if d.toNat ≥ 65 ∧ d.toNat ≤ 90 then Char.ofNat (d.toNat + 32) else d :=
    fun d => rfl
  rw [hup]
  split
  · rename_i hrange
    rw [hlo, hlo]
    have hnat : (Char.ofNat (c.toNat - 32)).toNat = c.toNat - 32 :=
      char_toNat_ofNat _ (by omega) (by omega)
    rw [hnat, if_pos (by omega), if_neg (by omega)]
    have : c.toNat - 32 + 32 = c.toNat := by omega
    rw [this, Char.ofNat_toNat]
  · rfl

/-- The dedup key ignores a character that is neither a word character
nor whitespace appended at the end. -/
theorem dedupKeyOfLower_append_dot (x : List Char) :
    dedupKeyOfLower (x ++ ['.']) = dedupKeyOfLower x := by
  simp [dedupKeyOfLower, List.filter_append, jsWordChar, jsWs]

/-- Forcing terminal punctuation does not change the dedup key. -/
theorem dedupKey_forceTerminalPunct (t : List Char) :
    dedupKey (forceTerminalPunct t) = dedupKey t := by
  have hdot : dedupKey (t ++ ['.']) = dedupKey t := by
    simp only [dedupKey, List.map_append]
    have h : (['.'] : List Char).map Char.toLower = ['.'] := rfl
    rw [h]
    exact dedupKeyOfLower_append_dot _
  cases hg : t.getLast? with
  | none => simp only [forceTerminalPunct, hg]; exact hdot
  | some c =>
    by_cases hc : c = '.' || c = '!' || c = '?'
    · simp only [forceTerminalPunct, hg, hc, if_true]
    · simp only [forceTerminalPunct, hg, hc, if_false]
      exact hdot

/-- Capitalizing the first letter does not change the dedup key. -/
theorem dedupKey_capitalizeFirst (x : List Char) :
    dedupKey (capitalizeFirst x) = dedupKey x := by
  cases x with
  | nil => rfl
  | cons c rest =>
    by_cases hc : 65 ≤ c.toNat && c.toNat ≤ 90
    · simp only [capitalizeFirst, hc, if_true]
    · have hred : capitalizeFirst (c :: rest) = c.toUpper :: rest := by
        simp [capitalizeFirst, hc]
      rw [hred]
      simp only [dedupKey, List.map_cons, toLower_toUpper]

/-- Final formatting (adding terminal punctuation and capitalizing the
first letter) does not change the dedup key. -/
theorem dedupKey_finalFormatRec (t : List Char) :
    dedupKey (finalFormatRec t) = dedupKeyOfLower (t.map Char.toLower) := by
  rw [finalFormatRec, dedupKey_capitalizeFirst, dedupKey_forceTerminalPunct]
  rfl

/-- The key of every accepted entry is recorded in `seen`, and distinct
recorded keys force pairwise-distinct entry keys. -/
theorem finalProcessAux_pairwise (recs : List String) :
    ∀ (seen : List (List Char)) (out : List (List Char)),
      (∀ e ∈ out, dedupKey e ∈ seen) →
      out.Pairwise (fun a b => dedupKey a ≠ dedupKey b) →
      (finalProcessAux recs seen out).Pairwise
        (fun a b => dedupKey a ≠ dedupKey b) := by
  induction recs with
  | nil =>
    intro seen out hseen hpw
    simp only [finalProcessAux]
    rw [List.pairwise_reverse]
    exact hpw.imp (fun h => Ne.symm h)
  | cons rec rest ih =>
    intro seen out hseen hpw
    simp only [finalProcessAux]
    by_cases h1 : (rec = "" || decide ((jsTrim rec.data).length < 25)) = true
    · rw [if_pos h1]
      exact ih seen out hseen hpw
    · rw [if_neg h1]
      by_cases h2 : excludeTest (jsTrim rec.data) = true
      · rw [if_pos h2]
        exact ih seen out hseen hpw
      · rw [if_neg h2]
        by_cases h3 : isValidRec ((jsTrim rec.data).map Char.toLower) = true
        · rw [if_neg (by simp [h3])]
          by_cases h4 :
              seen.contains (dedupKeyOfLower ((jsTrim rec.data).map Char.toLower)) = true
          · rw [if_pos h4]
            exact ih seen out hseen hpw
          · rw [if_neg h4]
            refine ih _ _ ?_ ?_
            · intro e he
              rcases List.mem_cons.mp he with h | h
              · subst h
                rw [dedupKey_finalFormatRec]
                exact List.mem_cons_self _ _
              · exact List.mem_cons_of_mem _ (hseen e h)
            · refine List.Pairwise.cons ?_ hpw
              intro e he heq
              apply h4
              rw [dedupKey_finalFormatRec] at heq
              have hmem : dedupKeyOfLower ((jsTrim rec.data).map Char.toLower) ∈ seen := by
                rw [heq]
                exact hseen e he
              simpa using hmem
        · rw [if_pos (by simp [h3])]
          exact ih seen out hseen hpw

/-- C9: for every candidate list reaching the final pass of the
recommendations mode (hence for every input text), the final list has at
most 12 entries and no two entries share the same dedup key
(lower-cased, punctuation stripped, whitespace collapsed, first 60
characters); two candidates differing only in trailing punctuation
collapse to one entry. -/
theorem claim_C9 :
    (∀ recs : List String,
        (finalRecommendations recs).length ≤ 12 ∧
          (finalRecommendations recs).Pairwise
            (fun a b => dedupKey a.data ≠ dedupKey b.data)) ∧
      finalRecommendations
          ["Students should practice the new routine every day",
           "Students should practice the new routine every day."] =
        ["Students should practice the new routine every day."] := by
  refine ⟨fun recs => ⟨?_, ?_⟩, by decide⟩
  · simp only [finalRecommendations, List.length_map]
    exact le_trans (List.length_take_le _ _) (le_refl _)
  · simp only [finalRecommendations]
    have hpw := finalProcessAux_pairwise recs [] [] (by simp) (by simp)
    have htake := hpw.sublist (List.take_sublist 12 _)
    refine (List.pairwise_map).mpr ?_
    refine htake.imp ?_
    intro a b h
    simpa using h
